import Mathlib


/-!
Verification of the license-detection engine (`ojt/license_detector.py`).

Strings are modelled as lists of Unicode code points (`List Nat`); the inputs
relevant to the claims are ASCII, and the Python character classes
(`\s`, `\w`, `str.lower`, `str.strip`) are modelled on code points.
Python floats are modelled as exact rationals, and `round(x, 3)` as exact
decimal rounding half to even.
-/

set_option maxRecDepth 100000


/- `Rat.mul`, `Rat.add`, `Rat.sub` and `Rat.inv` are shipped `@[irreducible]`,
which blocks `decide` on concrete rational computations; restore the default
reducibility for this development. -/
attribute [local semireducible] Rat.mul Rat.inv Rat.add Rat.sub


/-- Code points of a string literal. -/
def lchars (s : String) : List Nat := s.data.map Char.toNat


/-- Python regex `\s` on ASCII: space, tab, LF, VT, FF, CR. -/
def pyIsSpace (c : Nat) : Bool := c = 32 || c = 9 || c = 10 || c = 13 || c = 11 || c = 12


/-- Python regex `\w` on ASCII: digits, letters, underscore. -/
def pyIsWord (c : Nat) : Bool :=
  (48 ≤ c && c ≤ 57) || (97 ≤ c && c ≤ 122) || (65 ≤ c && c ≤ 90) || c = 95


/-- Python `str.lower` on ASCII code points. -/
def pyLower (c : Nat) : Nat := if 65 ≤ c && c ≤ 90 then c + 32 else c


/-- Characters kept by `re.sub(r'[^\w\s]', '', ...)`. -/
def keepChar (c : Nat) : Bool := pyIsWord c || pyIsSpace c


/-- Python `str.strip()`: drop whitespace from both ends. -/
def pyStrip (s : List Nat) : List Nat :=
  (((s.dropWhile pyIsSpace).reverse).dropWhile pyIsSpace).reverse


/-- Drop a single leading space (code 32) if present. -/
def dropHeadSpace (l : List Nat) : List Nat := if l.head? = some 32 then l.tail else l


/-- Python `re.sub(r'\s+', ' ', s)`: every maximal whitespace run becomes one
single space.  A whitespace character emits one `32` and absorbs the single
space that the rest of its run has already collapsed to. -/
def collapseWs : List Nat → List Nat
  | [] => []
  | c :: cs =>
    if pyIsSpace c then 32 :: dropHeadSpace (collapseWs cs)
    else c :: collapseWs cs


/-- The detector's `_normalize_text`: strip, lowercase, collapse whitespace,
then delete every character that is neither `\w` nor `\s`. -/
def normalizeText (t : List Nat) : List Nat :=
  (collapseWs ((pyStrip t).map pyLower)).filter keepChar


/-!
Similarity: `_compute_similarity` calls
`difflib.SequenceMatcher(None, a, b).ratio()`.  The model below follows the
CPython implementation with `isjunk = None` (so the junk set is empty and the
junk-extension loops of `find_longest_match` never fire) and the default
`autojunk = True`: when `len(b) >= 200`, characters occurring more than
`len(b) // 100 + 1` times in `b` are "popular" and excluded from the `b2j`
index, so the core longest-match search skips them, while the match-extension
loops (which only test the junk set, not popularity) still walk through them.
`find_longest_match` is modelled by its documented contract: among maximal
popular-free matching blocks pick the one starting earliest in `a`, then
earliest in `b`, then extend both ends by directly matching characters.
`ratio()` sums the matched block lengths (merging adjacent blocks and the
terminating sentinel do not change the sum) and returns `2*M/T`, or `1.0`
when both sequences are empty.
-/

/-- Autojunk popularity test of `SequenceMatcher.__chain_b`. -/
def isPopular (b : List Nat) (c : Nat) : Bool :=
  200 ≤ b.length && b.length / 100 + 1 < b.count c


/-- Fuel-indexed matching-run length; see `runLen`. -/
def runLenP (a b : List Nat) (pop : Nat → Bool) (ahi bhi : Nat) :
    Nat → Nat → Nat → Nat
  | 0, _, _ => 0
  | fuel + 1, i, j =>
    if i < ahi ∧ j < bhi ∧ a.getD i 0 = b.getD j 1 ∧ pop (b.getD j 1) = false then
      runLenP a b pop ahi bhi fuel (i + 1) (j + 1) + 1
    else 0


/-- Length of the matching run starting at `(i, j)` that stays inside the
window `[_, ahi) × [_, bhi)` and avoids positions of `b` holding a popular
character.  The fuel `ahi` dominates the number of steps, which is at most
`ahi - i`. -/
def runLen (a b : List Nat) (pop : Nat → Bool) (ahi bhi i j : Nat) : Nat :=
  runLenP a b pop ahi bhi ahi i j


/-- Inner loop of the longest-match search: scan the column indices `js` for
row `i`, strictly improving the best block.  The accumulator is destructured
so that evaluation stays incremental. -/
def bbInner (a b : List Nat) (pop : Nat → Bool) (ahi bhi i : Nat) :
    List Nat → Nat × Nat × Nat → Nat × Nat × Nat
  | [], best => best
  | j :: js, (bi, bj, bk) =>
    if bk < runLen a b pop ahi bhi i j then
      bbInner a b pop ahi bhi i js (i, j, runLen a b pop ahi bhi i j)
    else bbInner a b pop ahi bhi i js (bi, bj, bk)


/-- Outer loop of the longest-match search over the row indices. -/
def bbOuter (a b : List Nat) (pop : Nat → Bool) (ahi bhi blo : Nat) :
    List Nat → Nat × Nat × Nat → Nat × Nat × Nat
  | [], best => best
  | i :: is, (bi, bj, bk) =>
    bbOuter a b pop ahi bhi blo is
      (bbInner a b pop ahi bhi i (List.range' blo (bhi - blo)) (bi, bj, bk))


/-- Longest popular-free matching block in the window, preferring the lowest
start index in `a`, then in `b`; `(alo, blo, 0)` when there is none. -/
def bestBlock (a b : List Nat) (pop : Nat → Bool) (alo ahi blo bhi : Nat) :
    Nat × Nat × Nat :=
  bbOuter a b pop ahi bhi blo (List.range' alo (ahi - alo)) (alo, blo, 0)


/-- Fuel-indexed front extension; see `extendFront`. -/
def extendFrontA (a b : List Nat) (alo blo : Nat) : Nat → Nat × Nat × Nat → Nat × Nat × Nat
  | 0, x => x
  | fuel + 1, (i, j, k) =>
    if alo < i ∧ blo < j ∧ a.getD (i - 1) 0 = b.getD (j - 1) 1 then
      extendFrontA a b alo blo fuel (i - 1, j - 1, k + 1)
    else (i, j, k)


/-- Front extension loop of `find_longest_match` (the junk set is empty, so
only the direct character comparison remains).  The fuel `i` dominates the
number of steps, which is at most `i - alo`. -/
def extendFront (a b : List Nat) (alo blo : Nat) (x : Nat × Nat × Nat) :
    Nat × Nat × Nat :=
  extendFrontA a b alo blo x.1 x


/-- Fuel-indexed back extension; see `extendBack`. -/
def extendBackA (a b : List Nat) (ahi bhi : Nat) : Nat → Nat × Nat × Nat → Nat × Nat × Nat
  | 0, x => x
  | fuel + 1, (i, j, k) =>
    if i + k < ahi ∧ j + k < bhi ∧ a.getD (i + k) 0 = b.getD (j + k) 1 then
      extendBackA a b ahi bhi fuel (i, j, k + 1)
    else (i, j, k)


/-- Back extension loop of `find_longest_match` (the junk set is empty).  The
fuel `ahi` dominates the number of steps. -/
def extendBack (a b : List Nat) (ahi bhi : Nat) (x : Nat × Nat × Nat) :
    Nat × Nat × Nat :=
  extendBackA a b ahi bhi ahi x


/-- `find_longest_match` over a window. -/
def findLongest (a b : List Nat) (pop : Nat → Bool) (alo ahi blo bhi : Nat) :
    Nat × Nat × Nat :=
  extendBack a b ahi bhi (extendFront a b alo blo (bestBlock a b pop alo ahi blo bhi))


/-- Total length `M` of the non-overlapping blocks of `get_matching_blocks`:
take the longest match of the current window and recurse on the region before
it and the region after it.  The queue order, block sorting, adjacent-block
merging and the zero-length sentinel of the Python code do not affect the sum.
`fuel` dominates the recursion depth, which is bounded by the window size. -/
def mbSum (a b : List Nat) (pop : Nat → Bool) :
    Nat → Nat → Nat → Nat → Nat → Nat
  | 0, _, _, _, _ => 0
  | fuel + 1, alo, ahi, blo, bhi =>
    let m := findLongest a b pop alo ahi blo bhi
    if m.2.2 = 0 then 0
    else m.2.2 + mbSum a b pop fuel alo m.1 blo m.2.1 +
      mbSum a b pop fuel (m.1 + m.2.2) ahi (m.2.1 + m.2.2) bhi


/-- `SequenceMatcher(None, a, b).ratio()` as an exact rational:
`2*M/T`, and `1` when both sequences are empty (`difflib._calculate_ratio`). -/
def seqMatcherScore (a b : List Nat) : ℚ :=
  let m := mbSum a b (isPopular b) (a.length + b.length + 1) 0 a.length 0 b.length
  if a.length + b.length = 0 then 1
  else (2 * m : ℚ) / ((a.length + b.length : Nat) : ℚ)


/-- The detector's `_compute_similarity`: normalize both texts, then the
`SequenceMatcher` score. -/
def computeSimilarity (t1 t2 : List Nat) : ℚ :=
  seqMatcherScore (normalizeText t1) (normalizeText t2)


/-- Matched-length sum of the reference procedure stated by the specification:
greedy-recursive longest common substring with no popularity filtering and no
extension step, ties preferring the lowest start in `a`, then in `b`. -/
def refSum (a b : List Nat) : Nat → Nat → Nat → Nat → Nat → Nat
  | 0, _, _, _, _ => 0
  | fuel + 1, alo, ahi, blo, bhi =>
    let m := bestBlock a b (fun _ => false) alo ahi blo bhi
    if m.2.2 = 0 then 0
    else m.2.2 + refSum a b fuel alo m.1 blo m.2.1 +
      refSum a b fuel (m.1 + m.2.2) ahi (m.2.1 + m.2.2) bhi


/-- The specification's matching-blocks measure `2*M/T` on already-normalized
strings, with the documented special case of `0` when `T = 0`. -/
def refScore (a b : List Nat) : ℚ :=
  let m := refSum a b (a.length + b.length + 1) 0 a.length 0 b.length
  if a.length + b.length = 0 then 0
  else (2 * m : ℚ) / ((a.length + b.length : Nat) : ℚ)


/-!
Keyword scoring, classification (`detect_license`), evaluation
(`evaluate_samples`) and CSV export (`export_to_csv`).
-/

/-- Python substring containment `needle in hay`. -/
def isSubstr (needle hay : List Nat) : Bool :=
  hay.tails.any (fun t => needle.isPrefixOf t)


/-- The detector's `_keyword_match`: fraction of keywords contained
case-insensitively in the raw text; `1` for an empty keyword list. -/
def keywordMatch (text : List Nat) (keywords : List (List Nat)) : ℚ :=
  let tl := text.map pyLower
  let m := (keywords.filter (fun k => isSubstr (k.map pyLower) tl)).length
  if keywords = [] then 1 else (m : ℚ) / (keywords.length : ℚ)


/-- One catalogue entry (`license_templates` value). -/
structure LicenseInfo where
  name : List Nat
  spdxId : List Nat
  keywords : List (List Nat)
  template : List Nat
deriving DecidableEq


/-- One scored candidate in `detect_license`'s `matches` list. -/
structure MatchCandidate where
  licenseId : List Nat
  licenseName : List Nat
  spdxId : List Nat
  similarity : ℚ
  keywordScore : ℚ
  combinedScore : ℚ
deriving DecidableEq


/-- The dictionary returned by `detect_license`.  `reason` is present only in
the short-text branch; `spdxId`/`licenseId` are absent (`none`) in the
short-text and empty-catalogue branches. -/
structure DetectionResult where
  detected : List Nat
  confidence : ℚ
  isAmbiguous : Bool
  matchList : List MatchCandidate
  spdxId : Option (List Nat)
  licenseId : Option (List Nat)
  reason : Option (List Nat)
deriving DecidableEq


/-- Floor of a rational, via floor division of numerator by denominator. -/
def ratFloor (q : ℚ) : ℤ := Int.fdiv q.num (q.den : ℤ)


/-- Round a rational to the nearest integer, halves to even — Python's
`round` on an exactly represented value. -/
def roundHalfEven (q : ℚ) : ℤ :=
  let n := ratFloor q
  let f : ℚ := q - (n : ℚ)
  if f < 1/2 then n
  else if (1/2 : ℚ) < f then n + 1
  else if n % 2 = 0 then n else n + 1


/-- Python `round(q, 3)` on an exactly represented value. -/
def round3 (q : ℚ) : ℚ := ((roundHalfEven (q * 1000) : ℤ) : ℚ) / 1000


/-- Candidate built for one catalogue entry: similarity against the template,
keyword score against the keywords, combined score `0.7*sim + 0.3*kw`. -/
def candidateFor (text : List Nat) (entry : List Nat × LicenseInfo) : MatchCandidate :=
  let sim := computeSimilarity text entry.2.template
  let kw := keywordMatch text entry.2.keywords
  { licenseId := entry.1
    licenseName := entry.2.name
    spdxId := entry.2.spdxId
    similarity := sim
    keywordScore := kw
    combinedScore := sim * (7/10) + kw * (3/10) }


/-- Stable insertion preserving descending `combinedScore` order: an element
is placed after every earlier-listed candidate with an equal or higher score,
matching Python's stable `sort(key=..., reverse=True)`. -/
def insertDesc (c : MatchCandidate) : List MatchCandidate → List MatchCandidate
  | [] => [c]
  | d :: ds =>
    if d.combinedScore ≤ c.combinedScore then c :: d :: ds
    else d :: insertDesc c ds


/-- Stable sort by `combinedScore`, descending. -/
def sortDesc (l : List MatchCandidate) : List MatchCandidate := l.foldr insertDesc []


/-- Result of the "Text too short" fast path. -/
def shortTextResult : DetectionResult :=
  { detected := lchars "Unknown"
    confidence := 0
    isAmbiguous := true
    matchList := []
    spdxId := none
    licenseId := none
    reason := some (lchars "Text too short") }


/-- The detector's `detect_license`.  The catalogue is the insertion-ordered
`license_templates` mapping. -/
def detectLicense (cat : List (List Nat × LicenseInfo)) (text : List Nat) :
    DetectionResult :=
  if text = [] ∨ (pyStrip text).length < 10 then shortTextResult
  else
    match sortDesc (cat.map (candidateFor text)) with
    | [] =>
      { detected := lchars "Unknown"
        confidence := 0
        isAmbiguous := true
        matchList := []
        spdxId := none
        licenseId := none
        reason := none }
    | best :: rest =>
      { detected := best.licenseName
        confidence := round3 best.combinedScore
        isAmbiguous :=
          if best.combinedScore < (4/5 : ℚ) then true
          else match rest with
            | [] => false
            | second :: _ => decide (best.combinedScore - second.combinedScore < (3/20 : ℚ))
        matchList := (best :: rest).take 5
        spdxId := some best.spdxId
        licenseId := some best.licenseId
        reason := none }


/-- One labeled sample for `evaluate_samples`. -/
structure Sample where
  text : List Nat
  expected : List Nat
deriving DecidableEq


/-- The per-sample success test of `evaluate_samples`: case-insensitive
substring containment in either direction between the stripped expected label
and the detected license name. -/
def sampleMatch (cat : List (List Nat × LicenseInfo)) (s : Sample) : Bool :=
  let e := (pyStrip s.expected).map pyLower
  let d := ((detectLicense cat s.text).detected).map pyLower
  isSubstr e d || isSubstr d e


/-- False-positive test: not a match, and the detected license is not
`"Unknown"`. -/
def sampleFP (cat : List (List Nat × LicenseInfo)) (s : Sample) : Bool :=
  !sampleMatch cat s && decide ((detectLicense cat s.text).detected ≠ lchars "Unknown")


/-- False-negative test: not a match, and the stripped expected label is
non-empty. -/
def sampleFN (cat : List (List Nat × LicenseInfo)) (s : Sample) : Bool :=
  !sampleMatch cat s && decide (pyStrip s.expected ≠ [])


/-- The metrics dictionary of `evaluate_samples`. -/
structure EvalMetrics where
  accuracy : ℚ
  precision : ℚ
  recallScore : ℚ
  f1Score : ℚ
  totalSamples : Nat
  correct : Nat
  truePositives : Nat
  falsePositives : Nat
  falseNegatives : Nat
deriving DecidableEq


/-- `evaluate_samples` either reports the empty-input error dictionary or a
metrics dictionary. -/
inductive EvalOutcome where
  | failure : List Nat → EvalOutcome
  | metrics : EvalMetrics → EvalOutcome
deriving DecidableEq


/-- Accumulate `(correct, TP, FP, FN)` over one sample. -/
def evalStep (cat : List (List Nat × LicenseInfo)) (acc : Nat × Nat × Nat × Nat)
    (s : Sample) : Nat × Nat × Nat × Nat :=
  if sampleMatch cat s then (acc.1 + 1, acc.2.1 + 1, acc.2.2.1, acc.2.2.2)
  else
    (acc.1, acc.2.1,
      acc.2.2.1 + (if sampleFP cat s then 1 else 0),
      acc.2.2.2 + (if sampleFN cat s then 1 else 0))


/-- The detector's `evaluate_samples`. -/
def evaluateSamples (cat : List (List Nat × LicenseInfo)) (samples : List Sample) :
    EvalOutcome :=
  if samples = [] then .failure (lchars "No samples provided")
  else
    let acc := samples.foldl (evalStep cat) (0, 0, 0, 0)
    let t := samples.length
    let accuracy : ℚ := if 0 < t then (acc.1 : ℚ) / (t : ℚ) else 0
    let precision : ℚ :=
      if 0 < acc.2.1 + acc.2.2.1 then (acc.2.1 : ℚ) / ((acc.2.1 + acc.2.2.1 : Nat) : ℚ) else 0
    let rcl : ℚ :=
      if 0 < acc.2.1 + acc.2.2.2 then (acc.2.1 : ℚ) / ((acc.2.1 + acc.2.2.2 : Nat) : ℚ) else 0
    let f1 : ℚ :=
      if 0 < precision + rcl then 2 * (precision * rcl) / (precision + rcl) else 0
    .metrics
      { accuracy := round3 accuracy
        precision := round3 precision
        recallScore := round3 rcl
        f1Score := round3 f1
        totalSamples := t
        correct := acc.1
        truePositives := acc.2.1
        falsePositives := acc.2.2.1
        falseNegatives := acc.2.2.2 }


/-!
CSV export.  `export_to_csv` uses `csv.writer` with the default `excel`
dialect: delimiter `,`, quote character `"`, `QUOTE_MINIMAL` (a field is
quoted exactly when it contains the delimiter, the quote character, or a line
terminator character, with embedded quotes doubled) and row terminator CRLF.
-/

/-- One input record of `export_to_csv`, with the `.get` defaults already
applied (`''`, `'Unknown'`, `''`, `0`, `False`, `''`). -/
structure CsvRecord where
  id : List Nat
  detected : List Nat
  spdxId : List Nat
  confidence : ℚ
  isAmbiguous : Bool
  originalText : List Nat
deriving DecidableEq


/-- Digits of a natural number (code points), most significant first. -/
def natDigitsAux : Nat → Nat → List Nat
  | 0, _ => []
  | fuel + 1, n => if n < 10 then [48 + n] else natDigitsAux fuel (n / 10) ++ [48 + n % 10]


/-- Decimal digit string of a natural number. -/
def natDigits (n : Nat) : List Nat := natDigitsAux (n + 1) n


/-- Decimal rendering of a numeric confidence value, modelling `str()` of the
already-rounded score written by `csv.writer`: an optional minus sign, the
integer part, and (for non-integers) three fractional digits.  The exact
digit sequence is immaterial to the verified claims; what matters is that it
contains neither the delimiter, the quote character, nor line breaks. -/
def showScore (q : ℚ) : List Nat :=
  (if q.num < 0 then [45] else []) ++ natDigits (q.num.natAbs / q.den) ++
    (if q.num.natAbs % q.den = 0 then []
     else 46 :: (natDigits (1000 + q.num.natAbs % q.den * 1000 / q.den)).drop 1)


/-- Python `str()` of a boolean. -/
def showBool : Bool → List Nat
  | true => lchars "True"
  | false => lchars "False"


/-- QUOTE_MINIMAL test: delimiter, quote character, CR or LF present. -/
def needsQuote (f : List Nat) : Bool :=
  f.any (fun c => c = 44 || c = 34 || c = 13 || c = 10)


/-- Double every embedded quote character. -/
def escapeQuotes (f : List Nat) : List Nat :=
  f.foldr (fun c acc => if c = 34 then 34 :: 34 :: acc else c :: acc) []


/-- Render one field under QUOTE_MINIMAL. -/
def renderField (f : List Nat) : List Nat :=
  if needsQuote f then 34 :: (escapeQuotes f ++ [34]) else f


/-- Join rendered fields with the delimiter. -/
def joinFields : List (List Nat) → List Nat
  | [] => []
  | [f] => f
  | f :: fs => f ++ 44 :: joinFields fs


/-- Write one CSV row: delimiter-joined rendered fields plus CRLF. -/
def writeRow (fs : List (List Nat)) : List Nat :=
  joinFields (fs.map renderField) ++ [13, 10]


/-- The header row of `export_to_csv`. -/
def csvHeader : List (List Nat) :=
  [lchars "ID", lchars "Detected License", lchars "SPDX ID", lchars "Confidence",
    lchars "Is Ambiguous", lchars "Original Text"]


/-- The six field values written for one record; `original_text` is truncated
to its first 100 characters. -/
def rowFields (r : CsvRecord) : List (List Nat) :=
  [r.id, r.detected, r.spdxId, showScore r.confidence, showBool r.isAmbiguous,
    r.originalText.take 100]


/-- The detector's `export_to_csv`. -/
def exportToCsv (results : List CsvRecord) : List Nat :=
  writeRow csvHeader ++ (results.map (fun r => writeRow (rowFields r))).flatten


/-- Number of line-break boundaries, counting CRLF as one. -/
def lineBreakCount : List Nat → Nat
  | [] => 0
  | [c] => if c = 13 || c = 10 then 1 else 0
  | c :: d :: rest =>
    if c = 13 && d = 10 then lineBreakCount rest + 1
    else if c = 13 || c = 10 then lineBreakCount (d :: rest) + 1
    else lineBreakCount (d :: rest)


/-- Whether the string ends with a line-break character. -/
def endsWithBreak : List Nat → Bool
  | [] => false
  | [c] => c = 13 || c = 10
  | _ :: d :: rest => endsWithBreak (d :: rest)


/-- Number of lines in the sense of Python's `str.splitlines` (restricted to
CR, LF and CRLF breaks): break count, plus one for a trailing partial line. -/
def numLines (s : List Nat) : Nat :=
  if s = [] then 0 else lineBreakCount s + (if endsWithBreak s then 0 else 1)

/-- A record whose original text contains an embedded newline. -/
def newlineRecord : CsvRecord :=
  { id := lchars "1"
    detected := lchars "Unknown"
    spdxId := []
    confidence := 0
    isAmbiguous := false
    originalText := lchars "a\nb" }


/-- Keyword list for a catalogue entry with 11 keywords of which exactly 5
(the single letters `a`..`e`) occur in `c4Text`: the digits do not. -/
def c4Keywords : List (List Nat) :=
  (lchars "abcde").map (fun c => [c]) ++ (lchars "012345").map (fun c => [c])


def c4Info : LicenseInfo :=
  { name := lchars "Test License"
    spdxId := lchars "TEST"
    keywords := c4Keywords
    template := lchars "abcdefghi" }


def c4Cat : List (List Nat × LicenseInfo) := [(lchars "TEST", c4Info)]


def c4Text : List Nat := lchars "abcdefghij"


def c4Best : MatchCandidate :=
  { licenseId := lchars "TEST"
    licenseName := lchars "Test License"
    spdxId := lchars "TEST"
    similarity := 18/19
    keywordScore := 5/11
    combinedScore := 1671/2090 }


/-!
Claim C7: line structure and truncation of the CSV export.
-/

/-- A character list containing neither CR nor LF. -/
def breakFree (f : List Nat) : Prop := ∀ c ∈ f, c ≠ 13 ∧ c ≠ 10


instance (f : List Nat) : Decidable (breakFree f) :=
  inferInstanceAs (Decidable (∀ c ∈ f, c ≠ 13 ∧ c ≠ 10))


/-- No CR or LF in any string field of the record. -/
def recordBreakFree (r : CsvRecord) : Prop :=
  breakFree r.id ∧ breakFree r.detected ∧ breakFree r.spdxId ∧ breakFree r.originalText


instance (r : CsvRecord) : Decidable (recordBreakFree r) :=
  inferInstanceAs (Decidable (_ ∧ _ ∧ _ ∧ _))


def plainRecord : CsvRecord :=
  { id := lchars "7"
    detected := lchars "MIT License"
    spdxId := lchars "MIT"
    confidence := 4/5
    isAmbiguous := false
    originalText := lchars "Permission is granted" }


/-- First character of a list is whitespace. -/
def headSp (l : List Nat) : Bool :=
  match l with
  | [] => false
  | c :: _ => pyIsSpace c


/-- Last character of a list is whitespace. -/
def lastSp (l : List Nat) : Bool := headSp l.reverse


/-- The normalization pipeline in the order the specification words it:
collapse whitespace runs, trim, lowercase, then remove every character that
is not a word character or whitespace. -/
def specNormalize (t : List Nat) : List Nat :=
  ((pyStrip (collapseWs t)).map pyLower).filter keepChar


/-- No two adjacent whitespace characters. -/
def noDoubleSpace : List Nat → Bool
  | [] => true
  | [_] => true
  | a :: b :: r => !(pyIsSpace a && pyIsSpace b) && noDoubleSpace (b :: r)


/-!
Claim theorems.
-/

theorem evalFold (cat : List (List Nat × LicenseInfo)) (l : List Sample)
    (c t f n : Nat) :
    l.foldl (evalStep cat) (c, t, f, n) =
      (c + l.countP (sampleMatch cat), t + l.countP (sampleMatch cat),
        f + l.countP (sampleFP cat), n + l.countP (sampleFN cat)) := by
  induction l generalizing c t f n with
  | nil => simp
  | cons s l ih =>
    simp only [List.foldl_cons, List.countP_cons]
    by_cases hm : sampleMatch cat s
    · have hfp : sampleFP cat s = false := by simp [sampleFP, hm]
      have hfn : sampleFN cat s = false := by simp [sampleFN, hm]
      simp only [evalStep, hm, if_true, ih, hfp, hfn, Bool.false_eq_true, if_false,
        Prod.mk.injEq]
      omega
    · rw [Bool.not_eq_true] at hm
      simp only [evalStep, hm, Bool.false_eq_true, if_false, ih, Prod.mk.injEq]
      by_cases hfp : sampleFP cat s <;> by_cases hfn : sampleFN cat s <;>
        simp only [hfp, hfn, if_true, if_false, Bool.false_eq_true] <;> omega


/-- C2, counterexample: on two inputs that normalize to the empty string the
similarity is `1`, not `0` (`difflib._calculate_ratio` returns `1.0` for two
empty sequences). -/
theorem claim2_counterexample :
    computeSimilarity [] [] = 1 ∧ computeSimilarity [] [] ≠ 0 := by
  constructor <;> decide


/-- C2 (amended): when both inputs normalize to the empty string, the
similarity function returns `1.0` (the `difflib` convention for two empty
sequences) rather than failing; in particular `similarity("", "") = 1.0`. -/
theorem claim2_empty_similarity (t1 t2 : List Nat)
    (h1 : normalizeText t1 = []) (h2 : normalizeText t2 = []) :
    computeSimilarity t1 t2 = 1 := by
  unfold computeSimilarity seqMatcherScore
  rw [h1, h2]
  simp


theorem claim2_witness :
    normalizeText (lchars " . ") = [] ∧ computeSimilarity (lchars " . ") [] = 1 :=
  ⟨by decide, claim2_empty_similarity (lchars " . ") [] (by decide) (by decide)⟩


/-- C6: empty or short (trimmed length below 10) input takes the fast path:
`Unknown`, confidence `0`, ambiguous, no matches, reason `"Text too short"`,
with no failure. -/
theorem claim6_short_text (cat : List (List Nat × LicenseInfo)) (text : List Nat)
    (h : text = [] ∨ (pyStrip text).length < 10) :
    detectLicense cat text =
      { detected := lchars "Unknown"
        confidence := 0
        isAmbiguous := true
        matchList := []
        spdxId := none
        licenseId := none
        reason := some (lchars "Text too short") } := by
  unfold detectLicense
  rw [if_pos h]
  rfl


theorem claim6_witness :
    detectLicense [] (lchars "short") =
      { detected := lchars "Unknown"
        confidence := 0
        isAmbiguous := true
        matchList := []
        spdxId := none
        licenseId := none
        reason := some (lchars "Text too short") } :=
  claim6_short_text [] (lchars "short") (Or.inr (by decide))


/-- C9: `evaluate_samples` returns the error dictionary exactly when the
sample list is empty, and a metrics dictionary (never a failure) otherwise. -/
theorem claim9_error_iff_empty (cat : List (List Nat × LicenseInfo))
    (samples : List Sample) :
    ((∃ e, evaluateSamples cat samples = .failure e) ↔ samples = []) ∧
    (samples ≠ [] → ∃ m, evaluateSamples cat samples = .metrics m) := by
  constructor
  · constructor
    · rintro ⟨e, he⟩
      by_contra hne
      unfold evaluateSamples at he
      rw [if_neg hne] at he
      exact EvalOutcome.noConfusion he
    · intro h
      subst h
      exact ⟨lchars "No samples provided", by simp [evaluateSamples]⟩
  · intro h
    unfold evaluateSamples
    rw [if_neg h]
    exact ⟨_, rfl⟩


theorem claim9_witness :
    (∃ e, evaluateSamples [] [] = .failure e) ∧
    (∃ m, evaluateSamples [] [⟨lchars "x", lchars "y"⟩] = .metrics m) :=
  ⟨(claim9_error_iff_empty [] []).1.mpr rfl,
    (claim9_error_iff_empty [] [⟨lchars "x", lchars "y"⟩]).2 (by decide)⟩


theorem isSubstr_nil (hay : List Nat) : isSubstr [] hay = true := by
  unfold isSubstr
  cases hay <;> simp [List.tails, List.isPrefixOf]


/-- C10: a sample whose expected label strips to the empty string always
passes the containment test (the empty string is a substring of every
detected label), so `evaluate_samples` counts it as correct and as a true
positive regardless of the detection outcome. -/
theorem claim10_blank_expected (cat : List (List Nat × LicenseInfo)) (s : Sample)
    (rest : List Sample) (h : pyStrip s.expected = []) :
    sampleMatch cat s = true ∧
    ∃ m, evaluateSamples cat (s :: rest) = .metrics m ∧
      m.correct = 1 + rest.countP (sampleMatch cat) ∧
      m.truePositives = 1 + rest.countP (sampleMatch cat) := by
  have hmatch : sampleMatch cat s = true := by
    unfold sampleMatch
    rw [h]
    simp [isSubstr_nil]
  refine ⟨hmatch, ?_⟩
  unfold evaluateSamples
  rw [if_neg (by simp)]
  simp only [List.foldl_cons, evalStep, hmatch, if_true]
  rw [evalFold]
  refine ⟨_, rfl, ?_, ?_⟩ <;> simp


theorem claim10_witness :
    sampleMatch [] ⟨lchars "whatever text here", lchars "  "⟩ = true ∧
    ∃ m, evaluateSamples [] [⟨lchars "whatever text here", lchars "  "⟩] = .metrics m ∧
      m.correct = 1 + List.countP (sampleMatch []) [] ∧
      m.truePositives = 1 + List.countP (sampleMatch []) [] :=
  claim10_blank_expected [] ⟨lchars "whatever text here", lchars "  "⟩ [] (by decide)


/-- C5: on a non-empty sample list `evaluate_samples` returns the metrics
dictionary whose `correct` and true-positive counts are the number of samples
passing the case-insensitive bidirectional containment test, whose
false-positive count is the number of failing samples with a detected license
other than `"Unknown"`, whose false-negative count is the number of failing
samples with a non-empty (stripped) expected label, and whose four aggregate
scores are `correct/total`, `TP/(TP+FP)`, `TP/(TP+FN)` and `2PR/(P+R)` (each
`0` on a zero denominator), rounded to three decimals. -/
theorem claim5_eval_metrics (cat : List (List Nat × LicenseInfo))
    (samples : List Sample) (h : samples ≠ []) :
    evaluateSamples cat samples =
      (let C := samples.countP (sampleMatch cat)
       let TP := samples.countP (sampleMatch cat)
       let FP := samples.countP (sampleFP cat)
       let FN := samples.countP (sampleFN cat)
       let P : ℚ := if 0 < TP + FP then (TP : ℚ) / ((TP + FP : Nat) : ℚ) else 0
       let R : ℚ := if 0 < TP + FN then (TP : ℚ) / ((TP + FN : Nat) : ℚ) else 0
       .metrics
         { accuracy := round3 ((C : ℚ) / (samples.length : ℚ))
           precision := round3 P
           recallScore := round3 R
           f1Score := round3 (if 0 < P + R then 2 * (P * R) / (P + R) else 0)
           totalSamples := samples.length
           correct := C
           truePositives := TP
           falsePositives := FP
           falseNegatives := FN }) := by
  unfold evaluateSamples
  rw [if_neg h, evalFold]
  have hlen : 0 < samples.length := List.length_pos.mpr h
  simp only [Nat.zero_add, if_pos hlen]


theorem claim5_witness :
    evaluateSamples [] [⟨lchars "hello world license text", lchars "Unknown"⟩] =
      .metrics
        { accuracy := 1
          precision := 1
          recallScore := 1
          f1Score := 1
          totalSamples := 1
          correct := 1
          truePositives := 1
          falsePositives := 0
          falseNegatives := 0 } := by
  rw [claim5_eval_metrics [] [⟨lchars "hello world license text", lchars "Unknown"⟩]
    (by decide)]
  decide


/-- C4, counterexample: on this catalogue and text the single candidate's
combined score is `0.7*(18/19) + 0.3*(5/11) = 1671/2090 ≈ 0.799522`: the code
compares that raw value against `0.8` and reports ambiguity, while the
claim's rule — rounded confidence (here `0.8`) below `0.8`, or at least two
candidates with close scores — yields `false`. -/
theorem claim4_counterexample :
    (detectLicense c4Cat c4Text).isAmbiguous = true ∧
    (detectLicense c4Cat c4Text).confidence = 4/5 ∧
    ¬((detectLicense c4Cat c4Text).confidence < 4/5) ∧
    (detectLicense c4Cat c4Text).matchList.length = 1 := by
  refine ⟨by decide, by decide, by decide, by decide⟩


/-- C4 (amended): for text passing the length gate and a non-empty candidate
list, the returned confidence is `round(best.combined_score, 3)`, and
`is_ambiguous` is true exactly when the UNROUNDED best combined score is
below `0.8`, or else when a second candidate exists whose combined score is
within `0.15` of the best. -/
theorem claim4_confidence_ambiguity (cat : List (List Nat × LicenseInfo))
    (text : List Nat) (best : MatchCandidate) (rest : List MatchCandidate)
    (hgate : ¬(text = [] ∨ (pyStrip text).length < 10))
    (hs : sortDesc (cat.map (candidateFor text)) = best :: rest) :
    (detectLicense cat text).confidence = round3 best.combinedScore ∧
    ((detectLicense cat text).isAmbiguous = true ↔
      (best.combinedScore < 4/5 ∨
        ∃ second rest2, rest = second :: rest2 ∧
          best.combinedScore - second.combinedScore < 3/20)) := by
  unfold detectLicense
  rw [if_neg hgate, hs]
  refine ⟨rfl, ?_⟩
  by_cases hb : best.combinedScore < 4/5
  · simp [hb]
  · cases rest with
    | nil => simp [hb]
    | cons second rest2 =>
      by_cases hgap : best.combinedScore - second.combinedScore < 3/20 <;>
        simp [hb, hgap]


theorem claim4_witness :
    (detectLicense c4Cat c4Text).confidence = round3 c4Best.combinedScore ∧
    ((detectLicense c4Cat c4Text).isAmbiguous = true ↔
      (c4Best.combinedScore < 4/5 ∨
        ∃ second rest2, ([] : List MatchCandidate) = second :: rest2 ∧
          c4Best.combinedScore - second.combinedScore < 3/20)) :=
  claim4_confidence_ambiguity c4Cat c4Text c4Best [] (by decide) (by decide)


/-!
Claim C1: away from the autojunk regime (normalized `b` shorter than 200) and
the empty-empty corner, `SequenceMatcher.ratio()` coincides with the
specification's greedy matching-blocks procedure.  The proof shows that with
no popular characters the extension loops of `find_longest_match` can never
fire, because the core search already returns a maximal block.
-/

theorem bbInner_spec (a b : List Nat) (pop : Nat → Bool) (ahi bhi i : Nat)
    (js : List Nat) (acc : Nat × Nat × Nat) :
    (bbInner a b pop ahi bhi i js acc = acc ∨
      ∃ j ∈ js, bbInner a b pop ahi bhi i js acc = (i, j, runLen a b pop ahi bhi i j)) ∧
    acc.2.2 ≤ (bbInner a b pop ahi bhi i js acc).2.2 ∧
    ∀ j ∈ js, runLen a b pop ahi bhi i j ≤ (bbInner a b pop ahi bhi i js acc).2.2 := by
  induction js generalizing acc with
  | nil => simp [bbInner]
  | cons j js ih =>
    obtain ⟨bi, bj, bk⟩ := acc
    by_cases h : bk < runLen a b pop ahi bhi i j
    · have he : bbInner a b pop ahi bhi i (j :: js) (bi, bj, bk) =
          bbInner a b pop ahi bhi i js (i, j, runLen a b pop ahi bhi i j) := by
        simp [bbInner, h]
      obtain ⟨ho, hm, hall⟩ := ih (i, j, runLen a b pop ahi bhi i j)
      rw [he]
      refine ⟨?_, ?_, ?_⟩
      · rcases ho with h1 | ⟨j', hj', h2⟩
        · exact Or.inr ⟨j, List.mem_cons_self _ _, h1⟩
        · exact Or.inr ⟨j', List.mem_cons_of_mem _ hj', h2⟩
      · exact le_trans (le_of_lt h) (by simpa using hm)
      · intro j' hj'
        rcases List.mem_cons.mp hj' with rfl | hmem
        · simpa using hm
        · exact hall _ hmem
    · have he : bbInner a b pop ahi bhi i (j :: js) (bi, bj, bk) =
          bbInner a b pop ahi bhi i js (bi, bj, bk) := by
        simp [bbInner, h]
      obtain ⟨ho, hm, hall⟩ := ih (bi, bj, bk)
      rw [he]
      refine ⟨?_, by simpa using hm, ?_⟩
      · rcases ho with h1 | ⟨j', hj', h2⟩
        · exact Or.inl h1
        · exact Or.inr ⟨j', List.mem_cons_of_mem _ hj', h2⟩
      · intro j' hj'
        rcases List.mem_cons.mp hj' with rfl | hmem
        · exact le_trans (Nat.le_of_not_lt h) (by simpa using hm)
        · exact hall _ hmem


theorem bbOuter_spec (a b : List Nat) (pop : Nat → Bool) (ahi bhi blo : Nat)
    (is : List Nat) (acc : Nat × Nat × Nat) :
    (bbOuter a b pop ahi bhi blo is acc = acc ∨
      ∃ i ∈ is, ∃ j ∈ List.range' blo (bhi - blo),
        bbOuter a b pop ahi bhi blo is acc = (i, j, runLen a b pop ahi bhi i j)) ∧
    acc.2.2 ≤ (bbOuter a b pop ahi bhi blo is acc).2.2 ∧
    ∀ i ∈ is, ∀ j ∈ List.range' blo (bhi - blo),
      runLen a b pop ahi bhi i j ≤ (bbOuter a b pop ahi bhi blo is acc).2.2 := by
  induction is generalizing acc with
  | nil => simp [bbOuter]
  | cons i is ih =>
    obtain ⟨bi, bj, bk⟩ := acc
    have he : bbOuter a b pop ahi bhi blo (i :: is) (bi, bj, bk) =
        bbOuter a b pop ahi bhi blo is
          (bbInner a b pop ahi bhi i (List.range' blo (bhi - blo)) (bi, bj, bk)) := by
      simp [bbOuter]
    obtain ⟨o1, m1, all1⟩ :=
      bbInner_spec a b pop ahi bhi i (List.range' blo (bhi - blo)) (bi, bj, bk)
    obtain ⟨o2, m2, all2⟩ :=
      ih (bbInner a b pop ahi bhi i (List.range' blo (bhi - blo)) (bi, bj, bk))
    rw [he]
    refine ⟨?_, le_trans (by simpa using m1) m2, ?_⟩
    · rcases o2 with h2 | ⟨i', hi', j', hj', h2⟩
      · rcases o1 with h1 | ⟨j', hj', h1⟩
        · exact Or.inl (h2.trans h1)
        · exact Or.inr ⟨i, List.mem_cons_self _ _, j', hj', h2.trans h1⟩
      · exact Or.inr ⟨i', List.mem_cons_of_mem _ hi', j', hj', h2⟩
    · intro i' hi' j' hj'
      rcases List.mem_cons.mp hi' with rfl | hmem
      · exact le_trans (all1 _ hj') m2
      · exact all2 _ hmem _ hj'


theorem bestBlock_shape (a b : List Nat) (pop : Nat → Bool) (alo ahi blo bhi : Nat) :
    bestBlock a b pop alo ahi blo bhi = (alo, blo, 0) ∨
      ∃ i j, (alo ≤ i ∧ i < ahi ∧ blo ≤ j ∧ j < bhi) ∧
        bestBlock a b pop alo ahi blo bhi = (i, j, runLen a b pop ahi bhi i j) := by
  obtain ⟨ho, -, -⟩ :=
    bbOuter_spec a b pop ahi bhi blo (List.range' alo (ahi - alo)) (alo, blo, 0)
  rcases ho with h | ⟨i, hi, j, hj, h⟩
  · exact Or.inl h
  · rw [List.mem_range'_1] at hi hj
    exact Or.inr ⟨i, j, ⟨hi.1, by omega, hj.1, by omega⟩, h⟩


theorem bestBlock_max (a b : List Nat) (pop : Nat → Bool) (alo ahi blo bhi : Nat)
    (i j : Nat) (hi1 : alo ≤ i) (hi2 : i < ahi) (hj1 : blo ≤ j) (hj2 : j < bhi) :
    runLen a b pop ahi bhi i j ≤ (bestBlock a b pop alo ahi blo bhi).2.2 := by
  obtain ⟨-, -, hall⟩ :=
    bbOuter_spec a b pop ahi bhi blo (List.range' alo (ahi - alo)) (alo, blo, 0)
  exact hall i (List.mem_range'_1.mpr ⟨hi1, by omega⟩) j (List.mem_range'_1.mpr ⟨hj1, by omega⟩)


theorem runLenP_fuel_eq (a b : List Nat) (pop : Nat → Bool) (ahi bhi : Nat) :
    ∀ f1 f2 i j, ahi ≤ i + f1 → ahi ≤ i + f2 →
      runLenP a b pop ahi bhi f1 i j = runLenP a b pop ahi bhi f2 i j := by
  intro f1
  induction f1 with
  | zero =>
    intro f2 i j h1 h2
    cases f2 with
    | zero => rfl
    | succ n =>
      simp only [runLenP]
      rw [if_neg]
      rintro ⟨hc, -⟩
      omega
  | succ m ih =>
    intro f2 i j h1 h2
    cases f2 with
    | zero =>
      simp only [runLenP]
      rw [if_neg]
      rintro ⟨hc, -⟩
      omega
    | succ n =>
      simp only [runLenP]
      by_cases hc : i < ahi ∧ j < bhi ∧ a.getD i 0 = b.getD j 1 ∧ pop (b.getD j 1) = false
      · rw [if_pos hc, if_pos hc, ih n (i + 1) (j + 1) (by omega) (by omega)]
      · rw [if_neg hc, if_neg hc]


theorem runLenP_succ (a b : List Nat) (pop : Nat → Bool) (ahi bhi f i j : Nat) :
    runLenP a b pop ahi bhi (f + 1) i j =
      if i < ahi ∧ j < bhi ∧ a.getD i 0 = b.getD j 1 ∧ pop (b.getD j 1) = false then
        runLenP a b pop ahi bhi f (i + 1) (j + 1) + 1
      else 0 := rfl


theorem runLen_unfold (a b : List Nat) (pop : Nat → Bool) (ahi bhi i j : Nat) :
    runLen a b pop ahi bhi i j =
      if i < ahi ∧ j < bhi ∧ a.getD i 0 = b.getD j 1 ∧ pop (b.getD j 1) = false then
        runLen a b pop ahi bhi (i + 1) (j + 1) + 1
      else 0 := by
  cases hA : ahi with
  | zero =>
    rw [if_neg (by rintro ⟨hc, -⟩; omega)]
    rfl
  | succ n =>
    show runLenP a b pop (n + 1) bhi (n + 1) i j = _
    rw [runLenP_succ]
    by_cases hc : i < n + 1 ∧ j < bhi ∧ a.getD i 0 = b.getD j 1 ∧ pop (b.getD j 1) = false
    · rw [if_pos hc, if_pos hc,
        runLenP_fuel_eq a b pop (n + 1) bhi n (n + 1) (i + 1) (j + 1) (by omega) (by omega)]
      rfl
    · rw [if_neg hc, if_neg hc]


theorem runLen_stop (a b : List Nat) (pop : Nat → Bool) (ahi bhi : Nat) :
    ∀ k i j, runLen a b pop ahi bhi i j = k →
      ¬(i + k < ahi ∧ j + k < bhi ∧ a.getD (i + k) 0 = b.getD (j + k) 1 ∧
        pop (b.getD (j + k) 1) = false) := by
  intro k
  induction k with
  | zero =>
    intro i j h
    rw [runLen_unfold] at h
    split at h
    · omega
    · next hcond => simpa only [Nat.add_zero] using hcond
  | succ n ih =>
    intro i j h
    rw [runLen_unfold] at h
    split at h
    · have := ih (i + 1) (j + 1) (by omega)
      have harith : i + 1 + n = i + (n + 1) := by omega
      have harith2 : j + 1 + n = j + (n + 1) := by omega
      rwa [harith, harith2] at this
    · omega


theorem extendFrontA_noop (a b : List Nat) (alo blo : Nat) (fuel : Nat)
    (i j k : Nat)
    (h : ¬(alo < i ∧ blo < j ∧ a.getD (i - 1) 0 = b.getD (j - 1) 1)) :
    extendFrontA a b alo blo fuel (i, j, k) = (i, j, k) := by
  cases fuel with
  | zero => rfl
  | succ n =>
    simp only [extendFrontA]
    rw [if_neg h]


theorem extendBackA_noop (a b : List Nat) (ahi bhi : Nat) (fuel : Nat)
    (i j k : Nat)
    (h : ¬(i + k < ahi ∧ j + k < bhi ∧ a.getD (i + k) 0 = b.getD (j + k) 1)) :
    extendBackA a b ahi bhi fuel (i, j, k) = (i, j, k) := by
  cases fuel with
  | zero => rfl
  | succ n =>
    simp only [extendBackA]
    rw [if_neg h]


theorem findLongest_nopop (a b : List Nat) (alo ahi blo bhi : Nat) :
    findLongest a b (fun _ => false) alo ahi blo bhi =
      bestBlock a b (fun _ => false) alo ahi blo bhi := by
  have hshape := bestBlock_shape a b (fun _ => false) alo ahi blo bhi
  unfold findLongest
  have hf : extendFront a b alo blo (bestBlock a b (fun _ => false) alo ahi blo bhi) =
      bestBlock a b (fun _ => false) alo ahi blo bhi := by
    rcases hshape with h | ⟨i, j, ⟨hi1, hi2, hj1, hj2⟩, h⟩
    · rw [h]
      exact extendFrontA_noop a b alo blo alo alo blo 0 (by rintro ⟨hc, -⟩; omega)
    · rw [h]
      apply extendFrontA_noop
      rintro ⟨h1, h2, h3⟩
      have hstep : runLen a b (fun _ => false) ahi bhi (i - 1) (j - 1) =
          runLen a b (fun _ => false) ahi bhi i j + 1 := by
        rw [runLen_unfold]
        rw [if_pos ⟨by omega, by omega, h3, rfl⟩]
        have e1 : i - 1 + 1 = i := by omega
        have e2 : j - 1 + 1 = j := by omega
        rw [e1, e2]
      have hle := bestBlock_max a b (fun _ => false) alo ahi blo bhi (i - 1) (j - 1)
        (by omega) (by omega) (by omega) (by omega)
      rw [h, hstep] at hle
      simp at hle
  rw [hf]
  rcases hshape with h | ⟨i, j, ⟨hi1, hi2, hj1, hj2⟩, h⟩
  · rw [h]
    apply extendBackA_noop
    rintro ⟨h1, h2, h3⟩
    have hpos : 1 ≤ runLen a b (fun _ => false) ahi bhi alo blo := by
      rw [runLen_unfold, if_pos ⟨by omega, by omega, by simpa using h3, rfl⟩]
      omega
    have hle := bestBlock_max a b (fun _ => false) alo ahi blo bhi alo blo
      (le_refl _) (by omega) (le_refl _) (by omega)
    rw [h] at hle
    simp at hle
    omega
  · rw [h]
    apply extendBackA_noop
    rintro ⟨h1, h2, h3⟩
    exact runLen_stop a b (fun _ => false) ahi bhi
      (runLen a b (fun _ => false) ahi bhi i j) i j rfl ⟨h1, h2, h3, rfl⟩


theorem mbSum_eq_refSum (a b : List Nat) :
    ∀ fuel alo ahi blo bhi,
      mbSum a b (fun _ => false) fuel alo ahi blo bhi = refSum a b fuel alo ahi blo bhi := by
  intro fuel
  induction fuel with
  | zero => intro alo ahi blo bhi; rfl
  | succ n ih =>
    intro alo ahi blo bhi
    simp only [mbSum, refSum, findLongest_nopop, ih]


/-- C1, counterexample: with `a = "baa"` and `b` of 199 `a`s followed by one
`b`, autojunk (triggered because `len(b) = 200`) marks `a` popular, so the
code's ratio is `2/203` while the specified matching-blocks ratio on the same
normalized strings is `4/203`. -/
theorem claim1_counterexample :
    computeSimilarity (lchars "baa") (List.replicate 199 97 ++ [98]) = 2 / 203 ∧
    refScore (normalizeText (lchars "baa"))
      (normalizeText (List.replicate 199 97 ++ [98])) = 4 / 203 ∧
    computeSimilarity (lchars "baa") (List.replicate 199 97 ++ [98]) ≠
      refScore (normalizeText (lchars "baa"))
        (normalizeText (List.replicate 199 97 ++ [98])) := by
  refine ⟨by decide, by decide, ?_⟩
  intro h
  rw [show computeSimilarity (lchars "baa") (List.replicate 199 97 ++ [98]) = 2 / 203
    from by decide] at h
  rw [show refScore (normalizeText (lchars "baa"))
      (normalizeText (List.replicate 199 97 ++ [98])) = 4 / 203 from by decide] at h
  exact absurd h (by decide)


/-- C1 (amended): provided the normalized form of `b` is shorter than 200
characters (so difflib's autojunk heuristic stays off) and the two
normalizations are not both empty, the detector's similarity equals the
specification's matching-blocks ratio `2*M/T` on the normalized forms, with
the stated greedy-recursive longest-common-substring procedure and
tie-breaking. -/
theorem claim1_similarity_eq_ref (t1 t2 : List Nat)
    (hlen : (normalizeText t2).length < 200)
    (hT : (normalizeText t1).length + (normalizeText t2).length ≠ 0) :
    computeSimilarity t1 t2 = refScore (normalizeText t1) (normalizeText t2) := by
  unfold computeSimilarity seqMatcherScore refScore
  have hpop : isPopular (normalizeText t2) = fun _ => false := by
    funext c
    simp only [isPopular, Bool.and_eq_false_iff]
    left
    simp only [decide_eq_false_iff_not]
    omega
  rw [hpop, mbSum_eq_refSum, if_neg hT, if_neg hT]


theorem claim1_witness :
    (normalizeText (lchars "ba")).length < 200 ∧
    computeSimilarity (lchars "ab") (lchars "ba") =
      refScore (normalizeText (lchars "ab")) (normalizeText (lchars "ba")) :=
  ⟨by decide, claim1_similarity_eq_ref (lchars "ab") (lchars "ba") (by decide) (by decide)⟩


theorem mem_natDigitsAux (fuel n c : Nat) (h : c ∈ natDigitsAux fuel n) :
    48 ≤ c ∧ c ≤ 57 := by
  induction fuel generalizing n with
  | zero => simp [natDigitsAux] at h
  | succ m ih =>
    simp only [natDigitsAux] at h
    split at h
    · simp at h
      omega
    · rcases List.mem_append.mp h with h1 | h1
      · exact ih _ h1
      · simp at h1
        omega


theorem showScore_breakFree (q : ℚ) : breakFree (showScore q) := by
  intro c hc
  simp only [showScore, List.append_assoc, List.mem_append] at hc
  rcases hc with h | h | h
  · split at h <;> simp at h
    omega
  · have := mem_natDigitsAux _ _ _ h
    omega
  · split at h
    · simp at h
    · simp only [List.mem_cons] at h
      rcases h with rfl | h
      · omega
      · have := mem_natDigitsAux _ _ _ (List.mem_of_mem_drop h)
        omega


theorem showBool_breakFree (x : Bool) : breakFree (showBool x) := by
  cases x
  · intro c hc
    rw [show showBool false = [70, 97, 108, 115, 101] from by decide] at hc
    simp at hc
    omega
  · intro c hc
    rw [show showBool true = [84, 114, 117, 101] from by decide] at hc
    simp at hc
    omega


theorem mem_escapeQuotes (f : List Nat) (c : Nat) (h : c ∈ escapeQuotes f) :
    c = 34 ∨ c ∈ f := by
  induction f with
  | nil => simp [escapeQuotes] at h
  | cons x xs ih =>
    simp only [escapeQuotes, List.foldr_cons] at h
    split at h
    · simp only [List.mem_cons] at h
      rcases h with rfl | rfl | h
      · exact Or.inl rfl
      · exact Or.inl rfl
      · rcases ih h with h1 | h1
        · exact Or.inl h1
        · exact Or.inr (List.mem_cons_of_mem _ h1)
    · simp only [List.mem_cons] at h
      rcases h with rfl | h
      · exact Or.inr (List.mem_cons_self _ _)
      · rcases ih h with h1 | h1
        · exact Or.inl h1
        · exact Or.inr (List.mem_cons_of_mem _ h1)


theorem mem_renderField (f : List Nat) (c : Nat) (h : c ∈ renderField f) :
    c = 34 ∨ c ∈ f := by
  unfold renderField at h
  split at h
  · simp only [List.mem_cons, List.mem_append] at h
    rcases h with rfl | h | h
    · exact Or.inl rfl
    · exact mem_escapeQuotes _ _ h
    · simp at h
      exact Or.inl h
  · exact Or.inr h


theorem mem_joinFields (fs : List (List Nat)) (c : Nat) (h : c ∈ joinFields fs) :
    c = 44 ∨ ∃ f ∈ fs, c ∈ f := by
  induction fs with
  | nil => simp [joinFields] at h
  | cons f fs ih =>
    cases fs with
    | nil =>
      exact Or.inr ⟨f, List.mem_cons_self _ _, by simpa [joinFields] using h⟩
    | cons g gs =>
      simp only [joinFields, List.mem_append, List.mem_cons] at h
      rcases h with h | rfl | h
      · exact Or.inr ⟨f, List.mem_cons_self _ _, h⟩
      · exact Or.inl rfl
      · rcases ih (by simpa [joinFields] using h) with h1 | ⟨g', hg', hc'⟩
        · exact Or.inl h1
        · exact Or.inr ⟨g', List.mem_cons_of_mem _ hg', hc'⟩


theorem rowBody_breakFree (fs : List (List Nat)) (h : ∀ f ∈ fs, breakFree f) :
    breakFree (joinFields (fs.map renderField)) := by
  intro c hc
  rcases mem_joinFields _ _ hc with rfl | ⟨f, hf, hcf⟩
  · omega
  · rcases List.mem_map.mp hf with ⟨f0, hf0, rfl⟩
    rcases mem_renderField _ _ hcf with rfl | hcf0
    · omega
    · exact h f0 hf0 c hcf0


theorem endsWithBreak_append (x y : List Nat) (hy : y ≠ []) :
    endsWithBreak (x ++ y) = endsWithBreak y := by
  induction x with
  | nil => rfl
  | cons c cs ih =>
    cases hcy : cs ++ y with
    | nil => exact absurd (List.append_eq_nil.mp hcy).2 hy
    | cons d rest =>
      show endsWithBreak (c :: (cs ++ y)) = _
      rw [hcy]
      show endsWithBreak (d :: rest) = _
      rw [← hcy, ih]


theorem lineBreakCount_cons (c : Nat) (cs : List Nat) (h13 : c ≠ 13) (h10 : c ≠ 10) :
    lineBreakCount (c :: cs) = lineBreakCount cs := by
  cases cs with
  | nil =>
    show (if c = 13 || c = 10 then 1 else 0) = 0
    rw [if_neg (by simp; omega)]
  | cons d rest =>
    show (if c = 13 && d = 10 then lineBreakCount rest + 1
      else if c = 13 || c = 10 then lineBreakCount (d :: rest) + 1
      else lineBreakCount (d :: rest)) = _
    rw [if_neg (by simp; omega), if_neg (by simp; omega)]


theorem lineBreakCount_append (body t : List Nat) (h : breakFree body) :
    lineBreakCount (body ++ t) = lineBreakCount body + lineBreakCount t := by
  induction body with
  | nil =>
    show lineBreakCount t = lineBreakCount [] + lineBreakCount t
    show lineBreakCount t = 0 + lineBreakCount t
    omega
  | cons c cs ih =>
    have hc := h c (List.mem_cons_self _ _)
    have hcs : breakFree cs := fun x hx => h x (List.mem_cons_of_mem _ hx)
    rw [List.cons_append, lineBreakCount_cons c (cs ++ t) hc.1 hc.2, ih hcs,
      lineBreakCount_cons c cs hc.1 hc.2]


theorem lineBreakCount_breakFree (body : List Nat) (h : breakFree body) :
    lineBreakCount body = 0 := by
  induction body with
  | nil => rfl
  | cons c cs ih =>
    have hc := h c (List.mem_cons_self _ _)
    rw [lineBreakCount_cons c cs hc.1 hc.2]
    exact ih (fun x hx => h x (List.mem_cons_of_mem _ hx))


theorem numLines_row_append (body rest : List Nat) (h : breakFree body) :
    numLines (body ++ 13 :: 10 :: rest) = 1 + numLines rest := by
  have hne : body ++ 13 :: 10 :: rest ≠ [] := by simp
  unfold numLines
  rw [if_neg hne, lineBreakCount_append body (13 :: 10 :: rest) h,
    lineBreakCount_breakFree body h,
    endsWithBreak_append body (13 :: 10 :: rest) (by simp)]
  have hlb : lineBreakCount (13 :: 10 :: rest) = lineBreakCount rest + 1 := by
    show (if (13 : Nat) = 13 && (10 : Nat) = 10 then lineBreakCount rest + 1
      else if (13 : Nat) = 13 || (13 : Nat) = 10 then lineBreakCount (10 :: rest) + 1
      else lineBreakCount (10 :: rest)) = _
    rw [if_pos (by simp)]
  have heb : endsWithBreak (13 :: 10 :: rest) =
      if rest = [] then true else endsWithBreak rest := by
    cases rest with
    | nil => decide
    | cons e es =>
      show endsWithBreak (10 :: e :: es) = _
      show endsWithBreak (e :: es) = _
      rw [if_neg (by simp)]
  rw [hlb, heb]
  by_cases hr : rest = []
  · subst hr
    decide
  · rw [if_neg hr, if_neg hr]
    by_cases he : endsWithBreak rest <;> simp [he] <;> omega


theorem rowFields_breakFree (r : CsvRecord) (h : recordBreakFree r) :
    ∀ f ∈ rowFields r, breakFree f := by
  obtain ⟨h1, h2, h3, h4⟩ := h
  intro f hf
  simp only [rowFields, List.mem_cons] at hf
  rcases hf with rfl | rfl | rfl | rfl | rfl | hf
  · exact h1
  · exact h2
  · exact h3
  · exact showScore_breakFree _
  · exact showBool_breakFree _
  · simp only [List.mem_singleton, List.not_mem_nil, or_false] at hf
    subst hf
    exact fun c hc => h4 c (List.mem_of_mem_take hc)


theorem numLines_flatten_rows (rows : List (List (List Nat)))
    (h : ∀ fs ∈ rows, ∀ f ∈ fs, breakFree f) :
    numLines ((rows.map writeRow).flatten) = rows.length := by
  induction rows with
  | nil => rfl
  | cons fs rows ih =>
    simp only [List.map_cons, List.flatten_cons, List.length_cons]
    rw [writeRow, List.append_assoc,
      show ([13, 10] : List Nat) ++ (rows.map writeRow).flatten =
        13 :: 10 :: (rows.map writeRow).flatten from rfl,
      numLines_row_append _ _ (rowBody_breakFree _ (h fs (List.mem_cons_self _ _))),
      ih (fun a ha b hb => h a (List.mem_cons_of_mem _ ha) b hb)]
    omega


theorem csvHeader_breakFree : ∀ f ∈ csvHeader, breakFree f := by decide


/-- C7, counterexample: one record whose `original_text` contains an embedded
newline yields a three-line CSV string (the field is quoted, but the physical
line count still grows), not the claimed `len(results) + 1 = 2` lines. -/
theorem claim7_counterexample :
    numLines (exportToCsv [newlineRecord]) = 3 ∧ [newlineRecord].length + 1 = 2 :=
  ⟨by decide, rfl⟩


/-- C7 (amended): provided no string field of any record contains a carriage
return or line feed, the string returned by `export_to_csv` consists of
exactly `len(results) + 1` lines (the fixed header row plus one row per
result); and unconditionally the Original Text field of each row is the
record's `original_text` truncated to at most its first 100 characters. -/
theorem claim7_csv_shape (rs : List CsvRecord) (h : ∀ r ∈ rs, recordBreakFree r) :
    numLines (exportToCsv rs) = rs.length + 1 ∧
    ∀ r ∈ rs, (rowFields r).getD 5 [] = r.originalText.take 100 := by
  constructor
  · unfold exportToCsv
    rw [writeRow, List.append_assoc,
      show ([13, 10] : List Nat) ++ (rs.map (fun r => writeRow (rowFields r))).flatten =
        13 :: 10 :: (rs.map (fun r => writeRow (rowFields r))).flatten from rfl,
      numLines_row_append _ _ (rowBody_breakFree _ csvHeader_breakFree)]
    have hmm : rs.map (fun r => writeRow (rowFields r)) = (rs.map rowFields).map writeRow := by
      rw [List.map_map]
      rfl
    rw [hmm, numLines_flatten_rows (rs.map rowFields)
      (fun fs hfs => by
        rcases List.mem_map.mp hfs with ⟨r, hr, rfl⟩
        exact rowFields_breakFree r (h r hr))]
    simp [Nat.add_comm]
  · intro r hr
    rfl


theorem claim7_witness :
    numLines (exportToCsv [plainRecord]) = [plainRecord].length + 1 ∧
    ∀ r ∈ [plainRecord], (rowFields r).getD 5 [] = r.originalText.take 100 :=
  claim7_csv_shape [plainRecord] (by decide)


/-!
Claims C3 and C8: structure of the normalization pipeline.
-/

theorem pyIsSpace_pyLower (c : Nat) : pyIsSpace (pyLower c) = pyIsSpace c := by
  unfold pyLower
  split
  · next h =>
    simp only [Bool.and_eq_true, decide_eq_true_eq] at h
    have h1 : pyIsSpace (c + 32) = false := by
      unfold pyIsSpace
      simp only [Bool.or_eq_false_iff, decide_eq_false_iff_not]
      omega
    have h2 : pyIsSpace c = false := by
      unfold pyIsSpace
      simp only [Bool.or_eq_false_iff, decide_eq_false_iff_not]
      omega
    rw [h1, h2]
  · rfl


theorem pyLower_ne_upper (c : Nat) : ¬(65 ≤ pyLower c ∧ pyLower c ≤ 90) := by
  unfold pyLower
  split
  · next h =>
    simp only [Bool.and_eq_true, decide_eq_true_eq] at h
    omega
  · next h =>
    simp only [Bool.and_eq_true, decide_eq_true_eq, not_and] at h
    omega


theorem pyLower_id (c : Nat) (h : ¬(65 ≤ c ∧ c ≤ 90)) : pyLower c = c := by
  unfold pyLower
  rw [if_neg (by simpa using h)]


theorem pyLower_eq_32 (c : Nat) : pyLower c = 32 ↔ c = 32 := by
  unfold pyLower
  split
  · next h =>
    simp only [Bool.and_eq_true, decide_eq_true_eq] at h
    omega
  · exact Iff.rfl


theorem collapseWs_cons_pos (c : Nat) (cs : List Nat) (h : pyIsSpace c = true) :
    collapseWs (c :: cs) = 32 :: dropHeadSpace (collapseWs cs) := by
  simp [collapseWs, h]


theorem collapseWs_cons_neg (c : Nat) (cs : List Nat) (h : pyIsSpace c = false) :
    collapseWs (c :: cs) = c :: collapseWs cs := by
  simp [collapseWs, h]


theorem mem_dropHeadSpace (l : List Nat) (c : Nat) (h : c ∈ dropHeadSpace l) : c ∈ l := by
  unfold dropHeadSpace at h
  split at h
  · exact List.mem_of_mem_tail h
  · exact h


theorem mem_collapseWs (s : List Nat) (c : Nat) (h : c ∈ collapseWs s) :
    c = 32 ∨ (c ∈ s ∧ pyIsSpace c = false) := by
  induction s with
  | nil => simp [collapseWs] at h
  | cons d ds ih =>
    by_cases hd : pyIsSpace d
    · rw [collapseWs_cons_pos d ds (by simpa using hd)] at h
      rcases List.mem_cons.mp h with rfl | h1
      · exact Or.inl rfl
      · rcases ih (mem_dropHeadSpace _ _ h1) with h2 | ⟨h2, h3⟩
        · exact Or.inl h2
        · exact Or.inr ⟨List.mem_cons_of_mem _ h2, h3⟩
    · rw [collapseWs_cons_neg d ds (by simpa using hd)] at h
      rcases List.mem_cons.mp h with rfl | h1
      · exact Or.inr ⟨List.mem_cons_self _ _, by simpa using hd⟩
      · rcases ih h1 with h2 | ⟨h2, h3⟩
        · exact Or.inl h2
        · exact Or.inr ⟨List.mem_cons_of_mem _ h2, h3⟩


theorem collapseWs_ne_nil (s : List Nat) (h : s ≠ []) : collapseWs s ≠ [] := by
  cases s with
  | nil => exact absurd rfl h
  | cons c cs =>
    by_cases hc : pyIsSpace c
    · rw [collapseWs_cons_pos c cs (by simpa using hc)]
      simp
    · rw [collapseWs_cons_neg c cs (by simpa using hc)]
      simp


theorem headSp_collapseWs (s : List Nat) : headSp (collapseWs s) = headSp s := by
  cases s with
  | nil => rfl
  | cons c cs =>
    by_cases hc : pyIsSpace c
    · rw [collapseWs_cons_pos c cs (by simpa using hc)]
      show pyIsSpace 32 = pyIsSpace c
      rw [show pyIsSpace 32 = true from rfl, hc]
    · rw [collapseWs_cons_neg c cs (by simpa using hc)]
      rfl


theorem dropWhile_headSp_false (l : List Nat) (h : headSp l = false) :
    l.dropWhile pyIsSpace = l := by
  cases l with
  | nil => rfl
  | cons c cs => exact List.dropWhile_cons_of_neg (by simp [headSp] at h; simp [h])


theorem collapse_dropWhile (s : List Nat) :
    collapseWs (s.dropWhile pyIsSpace) = (collapseWs s).dropWhile pyIsSpace := by
  induction s with
  | nil => rfl
  | cons c cs ih =>
    by_cases hc : pyIsSpace c
    · rw [List.dropWhile_cons_of_pos (by simpa using hc),
        collapseWs_cons_pos c cs (by simpa using hc),
        List.dropWhile_cons_of_pos (by decide), ih]
      cases hcc : collapseWs cs with
      | nil => rfl
      | cons d ds =>
        by_cases hd : d = 32
        · subst hd
          rw [show dropHeadSpace (32 :: ds) = ds from by simp [dropHeadSpace],
            List.dropWhile_cons_of_pos (by decide)]
        · rw [show dropHeadSpace (d :: ds) = d :: ds from by
            simp [dropHeadSpace, hd]]
    · rw [List.dropWhile_cons_of_neg (by simpa using hc),
        collapseWs_cons_neg c cs (by simpa using hc),
        List.dropWhile_cons_of_neg (by simpa using hc)]


theorem headSp_append (x y : List Nat) :
    headSp (x ++ y) = if x = [] then headSp y else headSp x := by
  cases x with
  | nil => simp
  | cons c cs => simp [headSp]


theorem lastSp_reverse (s : List Nat) : lastSp s.reverse = headSp s := by
  unfold lastSp
  rw [List.reverse_reverse]


theorem dropHeadSpace_append (x y : List Nat) (hx : x ≠ []) :
    dropHeadSpace (x ++ y) = dropHeadSpace x ++ y := by
  cases x with
  | nil => exact absurd rfl hx
  | cons c cs =>
    unfold dropHeadSpace
    by_cases hc : c = 32
    · subst hc
      simp
    · rw [if_neg (by simp [hc]), if_neg (by simp [hc])]


theorem lastSp_single (d : Nat) : lastSp [d] = pyIsSpace d := by
  simp [lastSp, headSp]


theorem lastSp_cons_cons (d e : Nat) (es : List Nat) :
    lastSp (d :: e :: es) = lastSp (e :: es) := by
  unfold lastSp
  rw [List.reverse_cons, headSp_append, if_neg (by simp)]


theorem pyIsSpace_32 : pyIsSpace 32 = true := rfl


theorem ne_32_of_not_space (c : Nat) (h : pyIsSpace c = false) : c ≠ 32 := by
  intro hc
  subst hc
  simp [pyIsSpace] at h


theorem dropHeadSpace_cons_ne (c : Nat) (cs : List Nat) (h : c ≠ 32) :
    dropHeadSpace (c :: cs) = c :: cs := by
  unfold dropHeadSpace
  rw [if_neg (by simp [h])]


theorem dropHeadSpace_cons_32 (cs : List Nat) : dropHeadSpace (32 :: cs) = cs := by
  unfold dropHeadSpace
  rw [if_pos (by simp)]
  rfl


theorem collapse_concat_nonspace (xs : List Nat) (c : Nat) (hc : pyIsSpace c = false) :
    collapseWs (xs ++ [c]) = collapseWs xs ++ [c] := by
  induction xs with
  | nil =>
    rw [List.nil_append, collapseWs_cons_neg c [] hc]
    rfl
  | cons d ds ih =>
    by_cases hd : pyIsSpace d
    · rw [List.cons_append, collapseWs_cons_pos d (ds ++ [c]) (by simpa using hd),
        collapseWs_cons_pos d ds (by simpa using hd), ih]
      cases hds : ds with
      | nil =>
        rw [show collapseWs ([] : List Nat) = [] from rfl]
        rw [List.nil_append, dropHeadSpace_cons_ne c [] (ne_32_of_not_space c hc)]
        rfl
      | cons e es =>
        rw [dropHeadSpace_append _ _ (collapseWs_ne_nil (e :: es) (by simp))]
        rfl
    · rw [List.cons_append, collapseWs_cons_neg d (ds ++ [c]) (by simpa using hd),
        collapseWs_cons_neg d ds (by simpa using hd), ih]
      rfl


theorem collapse_concat_space_end (xs : List Nat) (c : Nat) (hc : pyIsSpace c = true)
    (hl : lastSp xs = true) : collapseWs (xs ++ [c]) = collapseWs xs := by
  induction xs with
  | nil => simp [lastSp, headSp] at hl
  | cons d ds ih =>
    cases hds : ds with
    | nil =>
      subst hds
      rw [lastSp_single] at hl
      rw [List.cons_append]
      simp only [List.nil_append]
      rw [collapseWs_cons_pos d [c] hl, collapseWs_cons_pos d [] hl,
        collapseWs_cons_pos c [] hc]
      rfl
    | cons e es =>
      subst hds
      rw [lastSp_cons_cons] at hl
      by_cases hd : pyIsSpace d
      · rw [List.cons_append, collapseWs_cons_pos d _ (by simpa using hd),
          collapseWs_cons_pos d _ (by simpa using hd), ih hl]
      · rw [List.cons_append, collapseWs_cons_neg d _ (by simpa using hd),
          collapseWs_cons_neg d _ (by simpa using hd), ih hl]


theorem collapse_concat_space_mid (xs : List Nat) (c : Nat) (hc : pyIsSpace c = true)
    (hl : lastSp xs = false) : collapseWs (xs ++ [c]) = collapseWs xs ++ [32] := by
  induction xs with
  | nil =>
    rw [List.nil_append, collapseWs_cons_pos c [] hc]
    rfl
  | cons d ds ih =>
    cases hds : ds with
    | nil =>
      subst hds
      rw [lastSp_single] at hl
      rw [List.cons_append]
      simp only [List.nil_append]
      rw [collapseWs_cons_neg d [c] hl, collapseWs_cons_neg d [] hl,
        collapseWs_cons_pos c [] hc]
      rfl
    | cons e es =>
      subst hds
      rw [lastSp_cons_cons] at hl
      by_cases hd : pyIsSpace d
      · rw [List.cons_append, collapseWs_cons_pos d _ (by simpa using hd),
          collapseWs_cons_pos d _ (by simpa using hd), ih hl,
          dropHeadSpace_append _ _ (collapseWs_ne_nil (e :: es) (by simp))]
        rfl
      · rw [List.cons_append, collapseWs_cons_neg d _ (by simpa using hd),
          collapseWs_cons_neg d _ (by simpa using hd), ih hl]
        rfl


theorem dropHeadSpace_of_headSp_false (l : List Nat) (h : headSp l = false) :
    dropHeadSpace l = l := by
  cases l with
  | nil => rfl
  | cons x xs =>
    exact dropHeadSpace_cons_ne x xs (ne_32_of_not_space x (by simpa [headSp] using h))


theorem collapse_reverse (s : List Nat) :
    collapseWs s.reverse = (collapseWs s).reverse := by
  induction s with
  | nil => rfl
  | cons c cs ih =>
    rw [List.reverse_cons]
    by_cases hc : pyIsSpace c
    · rw [collapseWs_cons_pos c cs (by simpa using hc), List.reverse_cons]
      by_cases hh : headSp cs
      · have hcs : collapseWs cs = 32 :: dropHeadSpace (collapseWs cs) := by
          cases cs with
          | nil => simp [headSp] at hh
          | cons d ds =>
            have hd : pyIsSpace d = true := by simpa [headSp] using hh
            rw [collapseWs_cons_pos d ds hd, dropHeadSpace_cons_32]
        rw [collapse_concat_space_end _ _ (by simpa using hc)
            (by rw [lastSp_reverse]; simpa using hh), ih]
        nth_rewrite 1 [hcs]
        rw [List.reverse_cons]
      · have hdhs : dropHeadSpace (collapseWs cs) = collapseWs cs := by
          apply dropHeadSpace_of_headSp_false
          rw [headSp_collapseWs]
          simpa using hh
        rw [collapse_concat_space_mid _ _ (by simpa using hc)
            (by rw [lastSp_reverse]; simpa using hh), ih, hdhs]
    · rw [collapse_concat_nonspace _ _ (by simpa using hc), ih,
        collapseWs_cons_neg c cs (by simpa using hc), List.reverse_cons]


theorem collapse_strip (s : List Nat) :
    collapseWs (pyStrip s) = pyStrip (collapseWs s) := by
  unfold pyStrip
  rw [collapse_reverse, collapse_dropWhile, collapse_reverse, collapse_dropWhile]


theorem dropWhile_map_lower (s : List Nat) :
    (s.map pyLower).dropWhile pyIsSpace = (s.dropWhile pyIsSpace).map pyLower := by
  induction s with
  | nil => rfl
  | cons c cs ih =>
    by_cases hc : pyIsSpace c
    · rw [List.map_cons, List.dropWhile_cons_of_pos (by rw [pyIsSpace_pyLower]; simpa using hc),
        List.dropWhile_cons_of_pos (by simpa using hc), ih]
    · rw [List.map_cons, List.dropWhile_cons_of_neg (by rw [pyIsSpace_pyLower]; simpa using hc),
        List.dropWhile_cons_of_neg (by simpa using hc), List.map_cons]


theorem strip_map_lower (s : List Nat) :
    pyStrip (s.map pyLower) = (pyStrip s).map pyLower := by
  unfold pyStrip
  rw [dropWhile_map_lower, ← List.map_reverse, dropWhile_map_lower, ← List.map_reverse]


theorem dropHeadSpace_map_lower (l : List Nat) :
    dropHeadSpace (l.map pyLower) = (dropHeadSpace l).map pyLower := by
  cases l with
  | nil => rfl
  | cons d ds =>
    by_cases hd : d = 32
    · subst hd
      rw [List.map_cons, show pyLower 32 = 32 from rfl, dropHeadSpace_cons_32,
        dropHeadSpace_cons_32]
    · rw [List.map_cons, dropHeadSpace_cons_ne _ _ (by
        intro hx
        exact hd ((pyLower_eq_32 d).mp hx)), dropHeadSpace_cons_ne _ _ hd, List.map_cons]


theorem collapse_map_lower (s : List Nat) :
    collapseWs (s.map pyLower) = (collapseWs s).map pyLower := by
  induction s with
  | nil => rfl
  | cons c cs ih =>
    by_cases hc : pyIsSpace c
    · rw [List.map_cons, collapseWs_cons_pos _ _ (by rw [pyIsSpace_pyLower]; simpa using hc),
        collapseWs_cons_pos c cs (by simpa using hc), ih, dropHeadSpace_map_lower,
        List.map_cons, show pyLower 32 = 32 from rfl]
    · rw [List.map_cons, collapseWs_cons_neg _ _ (by rw [pyIsSpace_pyLower]; simpa using hc),
        collapseWs_cons_neg c cs (by simpa using hc), ih, List.map_cons]


/-- C8, counterexample: the underscore is kept by `\w` but is not
alphanumeric, so `normalize("_") = "_"`, while the claim's pipeline (deleting
every character that is not alphanumeric or whitespace) would return the
empty string. -/
theorem claim8_counterexample :
    normalizeText (lchars "_") = [95] ∧
    (((pyStrip (collapseWs (lchars "_"))).map pyLower).filter
      (fun c => (48 ≤ c && c ≤ 57) || (97 ≤ c && c ≤ 122) || (65 ≤ c && c ≤ 90) ||
        pyIsSpace c)) = [] ∧
    ¬((48 ≤ 95 ∧ 95 ≤ 57) ∨ (97 ≤ 95 ∧ 95 ≤ 122) ∨ 95 = 32) := by
  refine ⟨by decide, by decide, by decide⟩


/-- C8 (amended): `normalize(t)` is obtained by collapsing every whitespace
run to a single space, trimming, lowercasing, and removing every character
that is not a word character (alphanumeric or underscore) or whitespace; in
particular the output contains only lowercase alphanumeric characters,
underscores and spaces. -/
theorem claim8_pipeline (t : List Nat) :
    normalizeText t = specNormalize t ∧
    ∀ c ∈ normalizeText t,
      (48 ≤ c ∧ c ≤ 57) ∨ (97 ≤ c ∧ c ≤ 122) ∨ c = 95 ∨ c = 32 := by
  constructor
  · unfold normalizeText specNormalize
    rw [← strip_map_lower, collapse_strip, collapse_map_lower, strip_map_lower]
  · intro c hc
    unfold normalizeText at hc
    rw [List.mem_filter] at hc
    obtain ⟨hmem, hkeep⟩ := hc
    rcases mem_collapseWs _ _ hmem with rfl | ⟨hmem2, hsp⟩
    · right; right; right; rfl
    · rcases List.mem_map.mp hmem2 with ⟨d, -, rfl⟩
      have hup := pyLower_ne_upper d
      unfold keepChar pyIsWord at hkeep
      simp only [Bool.or_eq_true, Bool.and_eq_true, decide_eq_true_eq] at hkeep
      rcases hkeep with (((h1 | h2) | h3) | h4) | h5
      · exact Or.inl h1
      · exact Or.inr (Or.inl h2)
      · exact absurd h3 hup
      · exact Or.inr (Or.inr (Or.inl h4))
      · simp [hsp] at h5


theorem claim8_witness :
    normalizeText (lchars "A_ b!") = specNormalize (lchars "A_ b!") ∧
    ((48 ≤ 97 ∧ 97 ≤ 57) ∨ (97 ≤ 97 ∧ 97 ≤ 122) ∨ 97 = 95 ∨ 97 = 32) :=
  ⟨(claim8_pipeline (lchars "A_ b!")).1,
    (claim8_pipeline (lchars "A_ b!")).2 97 (by decide)⟩


theorem noDoubleSpace_tail (a : Nat) (l : List Nat) (h : noDoubleSpace (a :: l) = true) :
    noDoubleSpace l = true := by
  cases l with
  | nil => rfl
  | cons b r =>
    simp only [noDoubleSpace, Bool.and_eq_true] at h
    exact h.2


theorem noDoubleSpace_cons_nonspace (c : Nat) (l : List Nat) (hc : pyIsSpace c = false)
    (h : noDoubleSpace l = true) : noDoubleSpace (c :: l) = true := by
  cases l with
  | nil => rfl
  | cons b r => simp [noDoubleSpace, hc, h]


theorem noDoubleSpace_dropHeadSpace (l : List Nat) (h : noDoubleSpace l = true) :
    noDoubleSpace (dropHeadSpace l) = true := by
  cases l with
  | nil => rfl
  | cons x xs =>
    by_cases hx : x = 32
    · subst hx
      rw [dropHeadSpace_cons_32]
      exact noDoubleSpace_tail _ _ h
    · rwa [dropHeadSpace_cons_ne _ _ hx]


theorem collapse_noDoubleSpace (s : List Nat) :
    noDoubleSpace (collapseWs s) = true ∧
    headSp (dropHeadSpace (collapseWs s)) = false := by
  induction s with
  | nil => exact ⟨rfl, rfl⟩
  | cons c cs ih =>
    obtain ⟨ih1, ih2⟩ := ih
    by_cases hc : pyIsSpace c
    · rw [collapseWs_cons_pos c cs (by simpa using hc), dropHeadSpace_cons_32]
      constructor
      · cases hds : dropHeadSpace (collapseWs cs) with
        | nil => rfl
        | cons e es =>
          have he : pyIsSpace e = false := by
            rw [hds] at ih2
            simpa [headSp] using ih2
          rw [show noDoubleSpace (32 :: e :: es) =
            (!(pyIsSpace 32 && pyIsSpace e) && noDoubleSpace (e :: es)) from rfl]
          rw [pyIsSpace_32, he]
          simp only [Bool.and_false, Bool.not_false, Bool.true_and]
          rw [← hds]
          exact noDoubleSpace_dropHeadSpace _ ih1
      · exact ih2
    · rw [collapseWs_cons_neg c cs (by simpa using hc)]
      constructor
      · exact noDoubleSpace_cons_nonspace c _ (by simpa using hc) ih1
      · rw [dropHeadSpace_cons_ne c _ (ne_32_of_not_space c (by simpa using hc))]
        simpa [headSp] using hc


theorem mem_dropWhile_imp (p : Nat → Bool) (l : List Nat) (c : Nat)
    (h : c ∈ l.dropWhile p) : c ∈ l := by
  induction l with
  | nil => simp at h
  | cons x xs ih =>
    by_cases hx : p x
    · rw [List.dropWhile_cons_of_pos (by simpa using hx)] at h
      exact List.mem_cons_of_mem _ (ih h)
    · rwa [List.dropWhile_cons_of_neg (by simpa using hx)] at h


theorem mem_pyStrip (s : List Nat) (c : Nat) (h : c ∈ pyStrip s) : c ∈ s := by
  unfold pyStrip at h
  rw [List.mem_reverse] at h
  have h2 := mem_dropWhile_imp _ _ _ h
  rw [List.mem_reverse] at h2
  exact mem_dropWhile_imp _ _ _ h2


theorem headSp_dropWhile (l : List Nat) : headSp (l.dropWhile pyIsSpace) = false := by
  induction l with
  | nil => rfl
  | cons c cs ih =>
    by_cases hc : pyIsSpace c
    · rw [List.dropWhile_cons_of_pos (by simpa using hc)]
      exact ih
    · rw [List.dropWhile_cons_of_neg (by simpa using hc)]
      simpa [headSp] using hc


theorem lastSp_pyStrip (s : List Nat) : lastSp (pyStrip s) = false := by
  unfold pyStrip lastSp
  rw [List.reverse_reverse]
  exact headSp_dropWhile _


theorem headSp_pyStrip (s : List Nat) : headSp (pyStrip s) = false := by
  have hy : headSp (s.dropWhile pyIsSpace) = false := headSp_dropWhile s
  obtain ⟨pre, hpre⟩ :=
    List.dropWhile_suffix (l := (s.dropWhile pyIsSpace).reverse) pyIsSpace
  have hy2 : s.dropWhile pyIsSpace = pyStrip s ++ pre.reverse := by
    unfold pyStrip
    rw [← List.reverse_append, hpre, List.reverse_reverse]
  rw [hy2, headSp_append] at hy
  split at hy
  · next h =>
    rw [h]
    rfl
  · exact hy


theorem pyStrip_eq_self (v : List Nat) (h1 : headSp v = false) (h2 : lastSp v = false) :
    pyStrip v = v := by
  unfold pyStrip
  rw [dropWhile_headSp_false v h1, dropWhile_headSp_false v.reverse h2,
    List.reverse_reverse]


theorem map_pyLower_id (v : List Nat) (h : ∀ c ∈ v, ¬(65 ≤ c ∧ c ≤ 90)) :
    v.map pyLower = v := by
  induction v with
  | nil => rfl
  | cons c cs ih =>
    rw [List.map_cons, pyLower_id c (h c (List.mem_cons_self _ _)),
      ih (fun x hx => h x (List.mem_cons_of_mem _ hx))]


theorem collapseWs_eq_self (v : List Nat)
    (hsp : ∀ c ∈ v, pyIsSpace c = true → c = 32)
    (hnd : noDoubleSpace v = true) : collapseWs v = v := by
  induction v with
  | nil => rfl
  | cons c cs ih =>
    have hcs := ih (fun x hx hxs => hsp x (List.mem_cons_of_mem _ hx) hxs)
      (noDoubleSpace_tail _ _ hnd)
    by_cases hc : pyIsSpace c
    · have hc32 : c = 32 := hsp c (List.mem_cons_self _ _) (by simpa using hc)
      subst hc32
      rw [collapseWs_cons_pos 32 cs rfl, hcs]
      cases cs with
      | nil => rfl
      | cons d ds =>
        have hd : pyIsSpace d = false := by
          simp only [noDoubleSpace, Bool.and_eq_true, Bool.not_eq_true',
            Bool.and_eq_false_iff] at hnd
          rcases hnd.1 with h1 | h1
          · rw [pyIsSpace_32] at h1
            cases h1
          · exact h1
        rw [dropHeadSpace_cons_ne d ds (ne_32_of_not_space d hd)]
    · rw [collapseWs_cons_neg c cs (by simpa using hc), hcs]


theorem normalizeText_keep (t : List Nat) :
    ∀ c ∈ normalizeText t, keepChar c = true := by
  intro c hc
  exact (List.mem_filter.mp hc).2


theorem normalizeText_not_upper (t : List Nat) :
    ∀ c ∈ normalizeText t, ¬(65 ≤ c ∧ c ≤ 90) := by
  intro c hc
  have h1 := (List.mem_filter.mp hc).1
  rcases mem_collapseWs _ _ h1 with rfl | ⟨h2, -⟩
  · omega
  · rcases List.mem_map.mp h2 with ⟨d, -, rfl⟩
    exact pyLower_ne_upper d


theorem normalize_of_normalized (u : List Nat)
    (hkeep : ∀ c ∈ u, keepChar c = true)
    (hup : ∀ c ∈ u, ¬(65 ≤ c ∧ c ≤ 90)) :
    normalizeText u = collapseWs (pyStrip u) := by
  unfold normalizeText
  rw [map_pyLower_id (pyStrip u) (fun c hc => hup c (mem_pyStrip _ _ hc))]
  rw [List.filter_eq_self.mpr]
  intro c hc
  rcases mem_collapseWs _ _ hc with rfl | ⟨hmem, -⟩
  · rfl
  · exact hkeep c (mem_pyStrip _ _ hmem)


theorem normalize_of_canonical (v : List Nat)
    (hkeep : ∀ c ∈ v, keepChar c = true)
    (hup : ∀ c ∈ v, ¬(65 ≤ c ∧ c ≤ 90))
    (hsp32 : ∀ c ∈ v, pyIsSpace c = true → c = 32)
    (hhead : headSp v = false) (hlast : lastSp v = false)
    (hnd : noDoubleSpace v = true) : normalizeText v = v := by
  unfold normalizeText
  rw [pyStrip_eq_self v hhead hlast, map_pyLower_id v hup,
    collapseWs_eq_self v hsp32 hnd, List.filter_eq_self.mpr hkeep]


/-- C3, counterexample: normalization is not idempotent, because punctuation
is deleted only after whitespace has been collapsed and trimmed:
`normalize("a .") = "a "` (with a trailing space), while normalizing again
strips it to `"a"`. -/
theorem claim3_counterexample :
    normalizeText (normalizeText (lchars "a .")) ≠ normalizeText (lchars "a .") ∧
    normalizeText (lchars "a .") = [97, 32] ∧
    normalizeText (normalizeText (lchars "a .")) = [97] := by
  refine ⟨by decide, by decide, by decide⟩


/-- C3 (amended): normalization stabilizes after two applications: for every
input string `t`, `normalize(normalize(normalize(t))) =
normalize(normalize(t))` (a single application need not be a fixed point). -/
theorem claim3_double_stable (t : List Nat) :
    normalizeText (normalizeText (normalizeText t)) =
      normalizeText (normalizeText t) := by
  have hBu : normalizeText (normalizeText t) =
      collapseWs (pyStrip (normalizeText t)) :=
    normalize_of_normalized (normalizeText t) (normalizeText_keep t)
      (normalizeText_not_upper t)
  rw [hBu]
  apply normalize_of_canonical
  · intro c hc
    rcases mem_collapseWs _ _ hc with rfl | ⟨h2, -⟩
    · rfl
    · exact normalizeText_keep t c (mem_pyStrip _ _ h2)
  · intro c hc
    rcases mem_collapseWs _ _ hc with rfl | ⟨h2, -⟩
    · omega
    · exact normalizeText_not_upper t c (mem_pyStrip _ _ h2)
  · intro c hc hcs
    rcases mem_collapseWs _ _ hc with rfl | ⟨-, h3⟩
    · rfl
    · rw [h3] at hcs
      cases hcs
  · rw [collapse_strip]
    exact headSp_pyStrip _
  · rw [collapse_strip]
    exact lastSp_pyStrip _
  · exact (collapse_noDoubleSpace (pyStrip (normalizeText t))).1
